import Mathlib

/-!
Verification of `Labs/Lab1/ok/client/utils/encryption.py`.

Shallow embedding conventions:
* Python `bytes` values are `List Nat` whose elements are < 256.
* Python `str` values are `List Nat` of Unicode code points (a valid string
  has every code point a Unicode scalar value: < 0x110000 and not a surrogate).
* Python exceptions are the error side of `Except EncryptionError`.
* The external `pyaes.AESModeOfOperationCTR` primitive is modelled abstractly
  as a `StreamCipher`: a keyed keystream of bytes; CTR-mode encryption and
  decryption are both XOR of the data with the keystream starting at
  position 0, which is exactly how a freshly constructed pyaes CTR object
  behaves on a single `encrypt`/`decrypt` call.
* The Python stdlib `base64.b32encode` / `base64.b32decode` collaborators are
  embedded following CPython's implementation of RFC 4648 base32 (zero-pad
  the byte string to a multiple of 5, emit 8 base-32 digits per 5-byte
  quantum, overwrite the tail with `=` according to the leftover byte count;
  decoding requires a length that is a multiple of 8 and a pad-character
  count in {0, 1, 3, 4, 6}).
-/

namespace Encryption

/-- Code points of a Lean string literal (used to transcribe the Python
string constants of the source file). -/
def strCodes (s : String) : List Nat := s.data.map Char.toNat

/-- `HEADER_TEXT = "OKPY ENCRYPTED FILE FOLLOWS\n" + "-" * 100 + "\n"`
(45 is `-`, 10 is `\n`). -/
def HEADER_TEXT : List Nat :=
  strCodes "OKPY ENCRYPTED FILE FOLLOWS\n" ++ List.replicate 100 45 ++ [10]

/-- `PLAINTEXT_PADDING = b"0" * 16` — sixteen bytes 0x30 (the character `0`). -/
def PLAINTEXT_PADDING : List Nat := List.replicate 16 48

/-- The error variants of the module, named as in the specification's error
table: `PaddingError` is the `ValueError` raised by `encode_and_pad`,
`FormatError` the `ValueError` raised by `decrypt` on a missing header,
`DecodingError` covers `binascii.Error` from base32 decoding and
`UnicodeDecodeError` from UTF-8 decoding, `InvalidKeyError` is
`InvalidKeyException`, and `KeySizeError` is the `ValueError` pyaes raises
when the key material is not 16, 24 or 32 bytes long. -/
inductive EncryptionError where
  | PaddingError
  | FormatError
  | DecodingError
  | InvalidKeyError
  | KeySizeError
deriving DecidableEq, Repr

/-! ## Base32 (CPython `base64.b32encode` / `b32decode`) -/

/-- RFC 4648 base32 digit (0..31) to its uppercase character code:
0..25 ↦ `A`..`Z`, 26..31 ↦ `2`..`7`. -/
def b32Char (d : Nat) : Nat := if d < 26 then 65 + d else 50 + (d - 26)

/-- Inverse digit lookup (CPython's `_b32rev`): `none` on any character
outside the uppercase RFC 4648 base32 alphabet. -/
def b32CharRev (c : Nat) : Option Nat :=
  if 65 ≤ c ∧ c ≤ 90 then some (c - 65)
  else if 50 ≤ c ∧ c ≤ 55 then some (c - 50 + 26)
  else none

/-- Big-endian byte-string value (`int.from_bytes(s, 'big')`). -/
def bytesToNat (l : List Nat) : Nat := l.foldl (fun a b => a * 256 + b) 0

/-- Big-endian base-32 digit-string value (CPython's `acc` accumulator:
`acc = (acc << 5) + digit`). -/
def b32digitsToNat (l : List Nat) : Nat := l.foldl (fun a d => a * 32 + d) 0

/-- The 8 base-32 digits of a 40-bit quantum, most significant first. -/
def natToDigits8 (n : Nat) : List Nat :=
  [n / 32 ^ 7 % 32, n / 32 ^ 6 % 32, n / 32 ^ 5 % 32, n / 32 ^ 4 % 32,
   n / 32 ^ 3 % 32, n / 32 ^ 2 % 32, n / 32 % 32, n % 32]

/-- The 5 bytes of a 40-bit quantum, most significant first
(`acc.to_bytes(5, 'big')`). -/
def natToBytes5 (n : Nat) : List Nat :=
  [n / 2 ^ 32 % 256, n / 2 ^ 24 % 256, n / 2 ^ 16 % 256, n / 2 ^ 8 % 256,
   n % 256]

/-- CPython `base64.b32encode`: each full 5-byte quantum becomes 8 digit
characters; a final partial quantum of r bytes is zero-padded, encoded, and
its tail replaced by `=` (61), keeping 2/4/5/7 digit characters for
r = 1/2/3/4. -/
def b32encode : List Nat → List Nat
  | b0 :: b1 :: b2 :: b3 :: b4 :: rest =>
      (natToDigits8 (bytesToNat [b0, b1, b2, b3, b4])).map b32Char
        ++ b32encode rest
  | [] => []
  | [b0] =>
      ((natToDigits8 (bytesToNat [b0, 0, 0, 0, 0])).take 2).map b32Char
        ++ List.replicate 6 61
  | [b0, b1] =>
      ((natToDigits8 (bytesToNat [b0, b1, 0, 0, 0])).take 4).map b32Char
        ++ List.replicate 4 61
  | [b0, b1, b2] =>
      ((natToDigits8 (bytesToNat [b0, b1, b2, 0, 0])).take 5).map b32Char
        ++ List.replicate 3 61
  | [b0, b1, b2, b3] =>
      ((natToDigits8 (bytesToNat [b0, b1, b2, b3, 0])).take 7).map b32Char
        ++ List.replicate 1 61

/-- Remove every trailing occurrence of `c` (Python `rstrip`). -/
def rstripChar (c : Nat) (l : List Nat) : List Nat :=
  (l.reverse.dropWhile (· = c)).reverse

/-- The byte output of CPython `b32decode` once the input has been validated
and converted to digits: 5 bytes per full 8-digit quantum; the final partial
quantum (present exactly when `pad ≠ 0`) is shifted left by `5 * pad` bits
and contributes its first `(43 - 5 * pad) / 8` bytes. -/
def b32decodeDigits : List Nat → Nat → List Nat
  | d0 :: d1 :: d2 :: d3 :: d4 :: d5 :: d6 :: d7 :: rest, pad =>
      natToBytes5 (b32digitsToNat [d0, d1, d2, d3, d4, d5, d6, d7])
        ++ b32decodeDigits rest pad
  | [], _ => []
  | ds, pad =>
      (natToBytes5 (b32digitsToNat ds * 2 ^ (5 * pad))).take
        ((43 - 5 * pad) / 8)

/-- Map a fallible function over a list, failing on the first failure
(the behaviour of CPython's digit-lookup loop, which raises on the first
non-alphabet character). -/
def mapOpt (f : Nat → Option Nat) : List Nat → Option (List Nat)
  | [] => some []
  | a :: l =>
      match f a with
      | none => none
      | some b => (mapOpt f l).map (b :: ·)

/-- CPython `base64.b32decode` (strict case): fail unless the length is a
multiple of 8; strip trailing `=`, requiring the count of stripped pad
characters to be one of 0, 1, 3, 4, 6; fail on any remaining non-alphabet
character; then rebuild the bytes. -/
def b32decode (s : List Nat) : Option (List Nat) :=
  if s.length % 8 ≠ 0 then none
  else if s.length - (rstripChar 61 s).length = 0 ∨
      s.length - (rstripChar 61 s).length = 1 ∨
      s.length - (rstripChar 61 s).length = 3 ∨
      s.length - (rstripChar 61 s).length = 4 ∨
      s.length - (rstripChar 61 s).length = 6 then
    (mapOpt b32CharRev (rstripChar 61 s)).map
      (fun ds => b32decodeDigits ds (s.length - (rstripChar 61 s).length))
  else none

/-! ## Text-safety codec -/

/-- `str.lower` on a single ASCII character code. -/
def lowerChar (c : Nat) : Nat := if 65 ≤ c ∧ c ≤ 90 then c + 32 else c

/-- `str.upper` on a single ASCII character code. -/
def upperChar (c : Nat) : Nat := if 97 ≤ c ∧ c ≤ 122 then c - 32 else c

/-- `to_safe_string`:
`base64.b32encode(unsafe_bytes).decode('ascii').replace("=", "9").lower()`
(61 is `=`, 57 is `9`). -/
def to_safe_string (bs : List Nat) : List Nat :=
  ((b32encode bs).map (fun c => if c = 61 then 57 else c)).map lowerChar

/-- `from_safe_string`:
`base64.b32decode(safe_string.upper().replace("9", "=").encode('ascii'))`.
`none` models the `binascii.Error` of an invalid base32 input. -/
def from_safe_string (s : List Nat) : Option (List Nat) :=
  b32decode ((s.map upperChar).map (fun c => if c = 57 then 61 else c))

/-! ## Key pattern (`KEY_PATTERN = r"[a-z2-7]{52}9999"`) -/

/-- Membership in the regex character class `[a-z2-7]`. -/
def alphaChar (c : Nat) : Bool :=
  decide ((97 ≤ c ∧ c ≤ 122) ∨ (50 ≤ c ∧ c ≤ 55))

/-- A full (anchored) match of `[a-z2-7]{52}9999` against the whole string:
56 characters, the first 52 in `[a-z2-7]`, the last four the literal `9999`
(character code 57). -/
def matchesKeyPattern (s : List Nat) : Bool :=
  s.length = 56 && (s.take 52).all alphaChar && decide (s.drop 52 = [57, 57, 57, 57])

/-- `is_valid_key`: `re.match("^" + KEY_PATTERN + "$", key) is not None`.
Python's `$` (without `re.MULTILINE`) matches at the end of the string and
also just before a newline at the end of the string, so a pattern match
followed by one final `\n` (10) is accepted as well. -/
def is_valid_key (s : List Nat) : Bool :=
  matchesKeyPattern s ||
    (s.getLast? = some 10 && matchesKeyPattern s.dropLast)

/-- A match of `KEY_PATTERN` anchored at the start of `s` only (used by the
`re.findall` scan): at least 56 characters, the first 52 in `[a-z2-7]`,
then the literal `9999`. -/
def matchesAtStart (s : List Nat) : Bool :=
  56 ≤ s.length && (s.take 52).all alphaChar &&
    decide ((s.drop 52).take 4 = [57, 57, 57, 57])

/-- `get_keys`: `re.findall(KEY_PATTERN, document)` — scan left to right;
at each position, if the (fixed-length) pattern matches there, record the
56-character match and resume after it, else advance one character. -/
def get_keys : List Nat → List (List Nat)
  | [] => []
  | c :: rest =>
      if matchesAtStart (c :: rest) then
        (c :: rest).take 56 :: get_keys ((c :: rest).drop 56)
      else get_keys rest
termination_by s => s.length
decreasing_by
  · simp only [List.length_drop, List.length_cons]; omega
  · simp

/-! ## UTF-8 -/

/-- UTF-8 encoding of one code point (standard 1–4 byte forms, by range). -/
def utf8EncodeChar (c : Nat) : List Nat :=
  if c < 0x80 then [c]
  else if c < 0x800 then [0xC0 + c / 64, 0x80 + c % 64]
  else if c < 0x10000 then
    [0xE0 + c / 4096, 0x80 + c / 64 % 64, 0x80 + c % 64]
  else
    [0xF0 + c / 262144, 0x80 + c / 4096 % 64, 0x80 + c / 64 % 64,
     0x80 + c % 64]

/-- `str.encode('utf-8')` of a sequence of scalar code points. -/
def utf8Encode (s : List Nat) : List Nat := (s.map utf8EncodeChar).flatten

/-- Is `b` a UTF-8 continuation byte (`0x80..0xBF`)? -/
def contOk (b : Nat) : Bool := decide (0x80 ≤ b) && decide (b < 0xC0)

/-- Code point of a 2-byte UTF-8 sequence. -/
def cp2 (b0 b1 : Nat) : Nat := (b0 - 0xC0) * 64 + (b1 - 0x80)

/-- Code point of a 3-byte UTF-8 sequence. -/
def cp3 (b0 b1 b2 : Nat) : Nat :=
  (b0 - 0xE0) * 4096 + (b1 - 0x80) * 64 + (b2 - 0x80)

/-- Code point of a 4-byte UTF-8 sequence. -/
def cp4 (b0 b1 b2 b3 : Nat) : Nat :=
  (b0 - 0xF0) * 262144 + (b1 - 0x80) * 4096 + (b2 - 0x80) * 64 + (b3 - 0x80)

/-- Decode a single UTF-8 sequence from the front of the byte list,
returning the code point and the remaining bytes, or `none` on a malformed
front (truncated sequence, stray or missing continuation byte, overlong
form, surrogate, or code point above 0x10FFFF — the errors Python's strict
decoder rejects). -/
def utf8DecodeOne : List Nat → Option (Nat × List Nat)
  | [] => none
  | b0 :: bs =>
    if b0 < 0x80 then some (b0, bs)
    else if b0 < 0xE0 then
      match bs with
      | b1 :: bs2 =>
          if decide (0xC2 ≤ b0) && contOk b1 then some (cp2 b0 b1, bs2)
          else none
      | [] => none
    else if b0 < 0xF0 then
      match bs with
      | b1 :: b2 :: bs3 =>
          if contOk b1 && contOk b2 && decide (0x800 ≤ cp3 b0 b1 b2) &&
              !(decide (0xD800 ≤ cp3 b0 b1 b2) &&
                decide (cp3 b0 b1 b2 < 0xE000)) then
            some (cp3 b0 b1 b2, bs3)
          else none
      | _ => none
    else
      match bs with
      | b1 :: b2 :: b3 :: bs4 =>
          if decide (b0 < 0xF5) && contOk b1 && contOk b2 && contOk b3 &&
              decide (0x10000 ≤ cp4 b0 b1 b2 b3) &&
              decide (cp4 b0 b1 b2 b3 < 0x110000) then
            some (cp4 b0 b1 b2 b3, bs4)
          else none
      | _ => none

/-- Iterate `utf8DecodeOne` over the whole byte list.  The fuel only bounds
the recursion depth; since every step consumes at least one byte, fuel equal
to the list length (as used by `utf8Decode`) never runs out. -/
def utf8DecodeLoop : Nat → List Nat → Option (List Nat)
  | _, [] => some []
  | 0, _ :: _ => none
  | fuel + 1, b0 :: bs =>
    match utf8DecodeOne (b0 :: bs) with
    | none => none
    | some (c, rest) => (utf8DecodeLoop fuel rest).map (c :: ·)

/-- `bytes.decode('utf-8')` (strict). -/
def utf8Decode (l : List Nat) : Option (List Nat) := utf8DecodeLoop l.length l

/-- A Unicode scalar value: the code points a Python `str` may contain and
UTF-8-encode (no surrogates, below 0x110000). -/
def validScalar (c : Nat) : Prop := c < 0x110000 ∧ ¬(0xD800 ≤ c ∧ c < 0xE000)

/-- A well-formed Python string: every code point is a scalar value. -/
def ValidText (s : List Nat) : Prop := ∀ c ∈ s, validScalar c

instance (c : Nat) : Decidable (validScalar c) := by
  unfold validScalar; infer_instance

instance (s : List Nat) : Decidable (ValidText s) := by
  unfold ValidText; exact List.decidableBAll _ s

/-! ## Padding -/

/-- `encode_and_pad(data, to_length)`: UTF-8 encode; with a target length,
raise `PaddingError` when the encoding is longer, else right-pad with NUL
bytes to exactly `to_length`. -/
def encode_and_pad (data : List Nat) (toLength : Option Nat) :
    Except EncryptionError (List Nat) :=
  match toLength with
  | none => .ok (utf8Encode data)
  | some n =>
      if (utf8Encode data).length > n then .error .PaddingError
      else .ok (utf8Encode data ++
        List.replicate (n - (utf8Encode data).length) 0)

/-- `un_pad_and_decode(padded)`: strip trailing NUL bytes
(`padded.rstrip(b"\0")`), then UTF-8 decode. -/
def un_pad_and_decode (bs : List Nat) : Except EncryptionError (List Nat) :=
  match utf8Decode (rstripChar 0 bs) with
  | some s => .ok s
  | none => .error .DecodingError

/-! ## Stream cipher (pyaes `AESModeOfOperationCTR`, abstract) -/

/-- Abstract model of the external CTR-mode cipher: a keyed byte keystream.
`pyaes.AESModeOfOperationCTR(kb).encrypt(data)` (and `decrypt`, which is the
same operation) XORs `data` with the keystream of key `kb` starting at
position 0. -/
structure StreamCipher where
  keystream : List Nat → Nat → Nat
  keystream_lt : ∀ kb i, keystream kb i < 256

/-- XOR a byte list with the keystream values from position `i` on. -/
def xorKeystream (ks : Nat → Nat) : Nat → List Nat → List Nat
  | _, [] => []
  | i, b :: bs => (b ^^^ ks i) :: xorKeystream ks (i + 1) bs

/-- `aes_mode_of_operation(key)`: `pyaes.AESModeOfOperationCTR(from_safe_string(key))`.
The `binascii.Error` of `from_safe_string` propagates; pyaes raises a
`ValueError` unless the key material is 16, 24 or 32 bytes. The embedded
cipher object is just its key material (the keystream is supplied by a
`StreamCipher`). -/
def aes_mode_of_operation (key : List Nat) :
    Except EncryptionError (List Nat) :=
  match from_safe_string key with
  | none => .error .DecodingError
  | some kb =>
      if kb.length = 16 ∨ kb.length = 24 ∨ kb.length = 32 then .ok kb
      else .error .KeySizeError

/-! ## Encrypt / decrypt -/

/-- `encrypt(data, key, pad_length)`: prepend the sentinel to the padded
UTF-8 bytes, encrypt with the CTR cipher, text-safety-encode, and prepend
the header. (`encode_and_pad` runs before the cipher is constructed, as in
the source.) -/
def encrypt (C : StreamCipher) (data : List Nat) (key : List Nat)
    (padLength : Option Nat) : Except EncryptionError (List Nat) :=
  match encode_and_pad data padLength with
  | .error e => .error e
  | .ok padded =>
      match aes_mode_of_operation key with
      | .error e => .error e
      | .ok kb =>
          .ok (HEADER_TEXT ++
            to_safe_string
              (xorKeystream (C.keystream kb) 0 (PLAINTEXT_PADDING ++ padded)))

/-- `is_encrypted(encoded_ciphertext)`: `startswith(HEADER_TEXT)`. -/
def is_encrypted (t : List Nat) : Bool := HEADER_TEXT.isPrefixOf t

/-- `decrypt(encoded_ciphertext, key)`: check the header, text-safety-decode
the body, decrypt, check the 16-byte sentinel, strip it, un-pad and decode. -/
def decrypt (C : StreamCipher) (ct : List Nat) (key : List Nat) :
    Except EncryptionError (List Nat) :=
  if HEADER_TEXT.isPrefixOf ct then
    match from_safe_string (ct.drop HEADER_TEXT.length) with
    | none => .error .DecodingError
    | some ctBytes =>
        match aes_mode_of_operation key with
        | .error e => .error e
        | .ok kb =>
            let padded := xorKeystream (C.keystream kb) 0 ctBytes
            if PLAINTEXT_PADDING.isPrefixOf padded then
              un_pad_and_decode (padded.drop PLAINTEXT_PADDING.length)
            else .error .InvalidKeyError
  else .error .FormatError

/-! ## Lemmas: character maps and stripping -/

theorem b32Char_ne_61 {d : Nat} (h : d < 32) : b32Char d ≠ 61 := by
  unfold b32Char; split <;> omega

theorem b32CharRev_b32Char {d : Nat} (h : d < 32) :
    b32CharRev (b32Char d) = some d := by
  unfold b32Char b32CharRev
  split
  · rw [if_pos (by omega)]
    simp only [Option.some.injEq]
    omega
  · rw [if_neg (by omega), if_pos (by omega)]
    simp only [Option.some.injEq]
    omega

theorem dropWhileEq_replicate (c n : Nat) :
    List.dropWhile (· = c) (List.replicate n c) = [] := by
  induction n with
  | zero => rfl
  | succ n ih => simp [List.replicate_succ, List.dropWhile_cons, ih]

theorem dropWhileEq_of_ne (c : Nat) (l : List Nat) (h : ∀ x ∈ l, x ≠ c) :
    List.dropWhile (· = c) l = l := by
  cases l with
  | nil => rfl
  | cons a l => simp [List.dropWhile_cons, h a (by simp)]

theorem rstripChar_replicate (c n : Nat) :
    rstripChar c (List.replicate n c) = [] := by
  unfold rstripChar
  rw [List.reverse_replicate, dropWhileEq_replicate]
  rfl

theorem rstripChar_append_no (c : Nat) (xs ys : List Nat)
    (h : ∀ x ∈ xs, x ≠ c) :
    rstripChar c (xs ++ ys) = xs ++ rstripChar c ys := by
  unfold rstripChar
  rw [List.reverse_append, List.dropWhile_append]
  have hxs : List.dropWhile (· = c) xs.reverse = xs.reverse :=
    dropWhileEq_of_ne c xs.reverse (fun x hx => h x (List.mem_reverse.mp hx))
  by_cases hemp : (List.dropWhile (· = c) ys.reverse).isEmpty
  · rw [if_pos hemp, hxs, List.reverse_reverse]
    have : List.dropWhile (· = c) ys.reverse = [] :=
      List.isEmpty_iff.mp hemp
    rw [this]
    simp
  · rw [if_neg hemp]
    simp

/-! ## Lemmas: `mapOpt` -/

theorem mapOpt_append (f : Nat → Option Nat) (l₁ l₂ : List Nat) :
    mapOpt f (l₁ ++ l₂) =
      (mapOpt f l₁).bind (fun r₁ => (mapOpt f l₂).map (r₁ ++ ·)) := by
  induction l₁ with
  | nil => simp [mapOpt]
  | cons a l ih =>
    cases hfa : f a with
    | none => simp [mapOpt, hfa]
    | some b =>
      simp only [List.cons_append, mapOpt, hfa, List.append_eq, ih]
      cases mapOpt f l with
      | none => rfl
      | some r₁ =>
        cases mapOpt f l₂ with
        | none => rfl
        | some r₂ => rfl

theorem mapOpt_map_all (f : Nat → Option Nat) (g : Nat → Nat) (l : List Nat)
    (h : ∀ a ∈ l, f (g a) = some a) :
    mapOpt f (l.map g) = some l := by
  induction l with
  | nil => rfl
  | cons a l ih =>
    simp only [List.map_cons, mapOpt, h a (by simp)]
    rw [ih (fun a ha => h a (by simp [ha]))]
    rfl

/-! ## Lemmas: base32 quanta arithmetic -/

theorem natToDigits8_lt (n : Nat) : ∀ d ∈ natToDigits8 n, d < 32 := by
  intro d hd
  simp only [natToDigits8, List.mem_cons, List.not_mem_nil, or_false] at hd
  rcases hd with rfl | rfl | rfl | rfl | rfl | rfl | rfl | rfl <;> omega

theorem digitsToNat_natToDigits8 {n : Nat} (h : n < 2 ^ 40) :
    b32digitsToNat (natToDigits8 n) = n := by
  simp only [b32digitsToNat, natToDigits8, List.foldl_cons, List.foldl_nil]
  norm_num at h ⊢
  omega

theorem natToBytes5_bytesToNat {b0 b1 b2 b3 b4 : Nat}
    (h0 : b0 < 256) (h1 : b1 < 256) (h2 : b2 < 256) (h3 : b3 < 256)
    (h4 : b4 < 256) :
    natToBytes5 (bytesToNat [b0, b1, b2, b3, b4]) = [b0, b1, b2, b3, b4] := by
  simp only [natToBytes5, bytesToNat, List.foldl_cons, List.foldl_nil,
    List.cons.injEq, and_true]
  norm_num
  refine ⟨?_, ?_, ?_, ?_, ?_⟩ <;> omega

theorem bytesToNat_lt5 {b0 b1 b2 b3 b4 : Nat}
    (h0 : b0 < 256) (h1 : b1 < 256) (h2 : b2 < 256) (h3 : b3 < 256)
    (h4 : b4 < 256) :
    bytesToNat [b0, b1, b2, b3, b4] < 2 ^ 40 := by
  simp only [bytesToNat, List.foldl_cons, List.foldl_nil]
  norm_num
  omega

/-! ## Base32 round trip -/

theorem b32decode_cons8 (d0 d1 d2 d3 d4 d5 d6 d7 : Nat) (t : List Nat)
    (hd : ∀ d ∈ [d0, d1, d2, d3, d4, d5, d6, d7], d < 32) :
    b32decode (List.map b32Char [d0, d1, d2, d3, d4, d5, d6, d7] ++ t) =
      (b32decode t).map
        (fun r =>
          natToBytes5 (b32digitsToNat [d0, d1, d2, d3, d4, d5, d6, d7]) ++ r) := by
  have hne : ∀ x ∈ List.map b32Char [d0, d1, d2, d3, d4, d5, d6, d7], x ≠ 61 := by
    intro x hx
    obtain ⟨d, hdm, rfl⟩ := List.mem_map.mp hx
    exact b32Char_ne_61 (hd d hdm)
  have hmap :
      mapOpt b32CharRev (List.map b32Char [d0, d1, d2, d3, d4, d5, d6, d7]) =
        some [d0, d1, d2, d3, d4, d5, d6, d7] :=
    mapOpt_map_all _ _ _ (fun a ha => b32CharRev_b32Char (hd a ha))
  unfold b32decode
  rw [rstripChar_append_no 61 _ t hne]
  set st := rstripChar 61 t with hst
  have e1 : (List.map b32Char [d0, d1, d2, d3, d4, d5, d6, d7] ++ t).length =
      8 + t.length := by
    simp only [List.length_append, List.length_map, List.length_cons,
      List.length_nil]
    try omega
  have e2 : (List.map b32Char [d0, d1, d2, d3, d4, d5, d6, d7] ++ st).length =
      8 + st.length := by
    simp only [List.length_append, List.length_map, List.length_cons,
      List.length_nil]
    try omega
  rw [e1, e2]
  have e3 : 8 + t.length - (8 + st.length) = t.length - st.length := by omega
  have e4 : (8 + t.length) % 8 = t.length % 8 := by omega
  rw [e3, e4]
  by_cases h1 : t.length % 8 ≠ 0
  · rw [if_pos h1, if_pos h1]
    rfl
  · rw [if_neg h1, if_neg h1]
    by_cases h2 : t.length - st.length = 0 ∨ t.length - st.length = 1 ∨
        t.length - st.length = 3 ∨ t.length - st.length = 4 ∨
        t.length - st.length = 6
    · rw [if_pos h2, if_pos h2]
      rw [mapOpt_append, hmap]
      cases hM : mapOpt b32CharRev st with
      | none => rfl
      | some ds => simp [b32decodeDigits]
    · rw [if_neg h2, if_neg h2]
      rfl

theorem mapOpt_rev_chars (ds : List Nat) (hd : ∀ d ∈ ds, d < 32) :
    mapOpt b32CharRev (List.map b32Char ds) = some ds :=
  mapOpt_map_all _ _ _ (fun a ha => b32CharRev_b32Char (hd a ha))

theorem mapChar_ne_61 (ds : List Nat) (hd : ∀ d ∈ ds, d < 32) :
    ∀ x ∈ List.map b32Char ds, x ≠ 61 := by
  intro x hx
  obtain ⟨d, hdm, rfl⟩ := List.mem_map.mp hx
  exact b32Char_ne_61 (hd d hdm)

/-- Decoding one full data quantum followed by the trailing pad characters:
the generic final step of decoding a canonical base32 encoding. -/
theorem b32decode_dataPad (ds : List Nat) (p : Nat)
    (hlen : ds.length + p = 8) (hp : p = 1 ∨ p = 3 ∨ p = 4 ∨ p = 6)
    (hd : ∀ d ∈ ds, d < 32) :
    b32decode (ds.map b32Char ++ List.replicate p 61) =
      some (b32decodeDigits ds p) := by
  unfold b32decode
  rw [rstripChar_append_no 61 _ _ (mapChar_ne_61 ds hd), rstripChar_replicate,
    List.append_nil]
  have e1 : (List.map b32Char ds ++ List.replicate p 61).length =
      ds.length + p := by simp
  have e2 : (List.map b32Char ds).length = ds.length := by simp
  rw [e1, e2, hlen]
  rw [show 8 - ds.length = p from by omega]
  rw [if_neg (by omega), if_pos (by omega)]
  rw [mapOpt_rev_chars ds hd]
  rfl

theorem b32decode_quantum (n : Nat) (t : List Nat) :
    b32decode (List.map b32Char (natToDigits8 n) ++ t) =
      (b32decode t).map
        (fun r => natToBytes5 (b32digitsToNat (natToDigits8 n)) ++ r) :=
  b32decode_cons8 _ _ _ _ _ _ _ _ t (natToDigits8_lt n)

set_option maxHeartbeats 1600000 in
theorem b32decode_b32encode (bs : List Nat) (h : ∀ b ∈ bs, b < 256) :
    b32decode (b32encode bs) = some bs := by
  induction bs using b32encode.induct with
  | case1 b0 b1 b2 b3 b4 rest ih =>
    have h0 : b0 < 256 := h b0 (by simp)
    have h1 : b1 < 256 := h b1 (by simp)
    have h2 : b2 < 256 := h b2 (by simp)
    have h3 : b3 < 256 := h b3 (by simp)
    have h4 : b4 < 256 := h b4 (by simp)
    have hrest : ∀ b ∈ rest, b < 256 := fun b hb => h b (by simp [hb])
    rw [show b32encode (b0 :: b1 :: b2 :: b3 :: b4 :: rest) =
      List.map b32Char (natToDigits8 (bytesToNat [b0, b1, b2, b3, b4]))
        ++ b32encode rest from rfl]
    rw [b32decode_quantum, ih hrest,
      digitsToNat_natToDigits8 (bytesToNat_lt5 h0 h1 h2 h3 h4),
      natToBytes5_bytesToNat h0 h1 h2 h3 h4]
    rfl
  | case2 => rfl
  | case3 b0 =>
    have h0 : b0 < 256 := h b0 (by simp)
    rw [show b32encode [b0] =
      List.map b32Char
        [bytesToNat [b0, 0, 0, 0, 0] / 32 ^ 7 % 32,
         bytesToNat [b0, 0, 0, 0, 0] / 32 ^ 6 % 32] ++
        List.replicate 6 61 from rfl]
    rw [b32decode_dataPad _ 6 (by simp) (by omega)
      (by intro d hd
          simp only [List.mem_cons, List.not_mem_nil, or_false] at hd
          rcases hd with rfl | rfl <;> omega)]
    simp only [b32decodeDigits, b32digitsToNat, List.foldl_cons,
      List.foldl_nil, natToBytes5, bytesToNat, Option.some.injEq]
    norm_num
    omega
  | case4 b0 b1 =>
    have h0 : b0 < 256 := h b0 (by simp)
    have h1 : b1 < 256 := h b1 (by simp)
    rw [show b32encode [b0, b1] =
      List.map b32Char
        [bytesToNat [b0, b1, 0, 0, 0] / 32 ^ 7 % 32,
         bytesToNat [b0, b1, 0, 0, 0] / 32 ^ 6 % 32,
         bytesToNat [b0, b1, 0, 0, 0] / 32 ^ 5 % 32,
         bytesToNat [b0, b1, 0, 0, 0] / 32 ^ 4 % 32] ++
        List.replicate 4 61 from rfl]
    rw [b32decode_dataPad _ 4 (by simp) (by omega)
      (by intro d hd
          simp only [List.mem_cons, List.not_mem_nil, or_false] at hd
          rcases hd with rfl | rfl | rfl | rfl <;> omega)]
    simp only [b32decodeDigits, b32digitsToNat, List.foldl_cons,
      List.foldl_nil, natToBytes5, bytesToNat, Option.some.injEq]
    norm_num
    omega
  | case5 b0 b1 b2 =>
    have h0 : b0 < 256 := h b0 (by simp)
    have h1 : b1 < 256 := h b1 (by simp)
    have h2 : b2 < 256 := h b2 (by simp)
    rw [show b32encode [b0, b1, b2] =
      List.map b32Char
        [bytesToNat [b0, b1, b2, 0, 0] / 32 ^ 7 % 32,
         bytesToNat [b0, b1, b2, 0, 0] / 32 ^ 6 % 32,
         bytesToNat [b0, b1, b2, 0, 0] / 32 ^ 5 % 32,
         bytesToNat [b0, b1, b2, 0, 0] / 32 ^ 4 % 32,
         bytesToNat [b0, b1, b2, 0, 0] / 32 ^ 3 % 32] ++
        List.replicate 3 61 from rfl]
    rw [b32decode_dataPad _ 3 (by simp) (by omega)
      (by intro d hd
          simp only [List.mem_cons, List.not_mem_nil, or_false] at hd
          rcases hd with rfl | rfl | rfl | rfl | rfl <;> omega)]
    simp only [b32decodeDigits, b32digitsToNat, List.foldl_cons,
      List.foldl_nil, natToBytes5, bytesToNat, Option.some.injEq]
    norm_num
    omega
  | case6 b0 b1 b2 b3 =>
    have h0 : b0 < 256 := h b0 (by simp)
    have h1 : b1 < 256 := h b1 (by simp)
    have h2 : b2 < 256 := h b2 (by simp)
    have h3 : b3 < 256 := h b3 (by simp)
    rw [show b32encode [b0, b1, b2, b3] =
      List.map b32Char
        [bytesToNat [b0, b1, b2, b3, 0] / 32 ^ 7 % 32,
         bytesToNat [b0, b1, b2, b3, 0] / 32 ^ 6 % 32,
         bytesToNat [b0, b1, b2, b3, 0] / 32 ^ 5 % 32,
         bytesToNat [b0, b1, b2, b3, 0] / 32 ^ 4 % 32,
         bytesToNat [b0, b1, b2, b3, 0] / 32 ^ 3 % 32,
         bytesToNat [b0, b1, b2, b3, 0] / 32 ^ 2 % 32,
         bytesToNat [b0, b1, b2, b3, 0] / 32 % 32] ++
        List.replicate 1 61 from rfl]
    rw [b32decode_dataPad _ 1 (by simp) (by omega)
      (by intro d hd
          simp only [List.mem_cons, List.not_mem_nil, or_false] at hd
          rcases hd with rfl | rfl | rfl | rfl | rfl | rfl | rfl <;> omega)]
    simp only [b32decodeDigits, b32digitsToNat, List.foldl_cons,
      List.foldl_nil, natToBytes5, bytesToNat, Option.some.injEq]
    norm_num
    omega

/-! ## Text-safety codec round trip -/

theorem b32encode_chars (bs : List Nat) :
    ∀ c ∈ b32encode bs, c = 61 ∨ ∃ d, d < 32 ∧ c = b32Char d := by
  induction bs using b32encode.induct with
  | case1 b0 b1 b2 b3 b4 rest ih =>
    intro c hc
    simp only [b32encode, List.mem_append, List.mem_map] at hc
    rcases hc with ⟨d, hd, rfl⟩ | hc
    · exact Or.inr ⟨d, natToDigits8_lt _ d hd, rfl⟩
    · exact ih c hc
  | case2 => intro c hc; simp [b32encode] at hc
  | case3 b0 =>
    intro c hc
    simp only [b32encode, List.mem_append, List.mem_map] at hc
    rcases hc with ⟨d, hd, rfl⟩ | hc
    · exact Or.inr ⟨d, natToDigits8_lt _ d (List.mem_of_mem_take hd), rfl⟩
    · exact Or.inl (List.eq_of_mem_replicate hc)
  | case4 b0 b1 =>
    intro c hc
    simp only [b32encode, List.mem_append, List.mem_map] at hc
    rcases hc with ⟨d, hd, rfl⟩ | hc
    · exact Or.inr ⟨d, natToDigits8_lt _ d (List.mem_of_mem_take hd), rfl⟩
    · exact Or.inl (List.eq_of_mem_replicate hc)
  | case5 b0 b1 b2 =>
    intro c hc
    simp only [b32encode, List.mem_append, List.mem_map] at hc
    rcases hc with ⟨d, hd, rfl⟩ | hc
    · exact Or.inr ⟨d, natToDigits8_lt _ d (List.mem_of_mem_take hd), rfl⟩
    · exact Or.inl (List.eq_of_mem_replicate hc)
  | case6 b0 b1 b2 b3 =>
    intro c hc
    simp only [b32encode, List.mem_append, List.mem_map] at hc
    rcases hc with ⟨d, hd, rfl⟩ | hc
    · exact Or.inr ⟨d, natToDigits8_lt _ d (List.mem_of_mem_take hd), rfl⟩
    · exact Or.inl (List.eq_of_mem_replicate hc)

theorem safe_roundChar (c : Nat)
    (h : c = 61 ∨ ∃ d, d < 32 ∧ c = b32Char d) :
    (if upperChar (lowerChar (if c = 61 then 57 else c)) = 57 then 61
     else upperChar (lowerChar (if c = 61 then 57 else c))) = c := by
  rcases h with rfl | ⟨d, hd, rfl⟩
  · rfl
  · unfold b32Char lowerChar upperChar
    split_ifs <;> omega

theorem from_to_safe_string (bs : List Nat) (h : ∀ b ∈ bs, b < 256) :
    from_safe_string (to_safe_string bs) = some bs := by
  unfold from_safe_string to_safe_string
  simp only [List.map_map, Function.comp_def]
  have he : (List.map
      (fun c =>
        if upperChar (lowerChar (if c = 61 then 57 else c)) = 57 then 61
        else upperChar (lowerChar (if c = 61 then 57 else c)))
      (b32encode bs)) = List.map id (b32encode bs) :=
    List.map_congr_left (fun c hc => safe_roundChar c (b32encode_chars bs c hc))
  rw [he, List.map_id]
  exact b32decode_b32encode bs h

/-- C2. Text-safety codec bijection: for every byte sequence `b` (a list of
naturals below 256), `from_safe_string (to_safe_string b)` succeeds and
returns `b`. -/
theorem C2_safe_string_roundtrip (b : List Nat) (h : ∀ x ∈ b, x < 256) :
    from_safe_string (to_safe_string b) = some b :=
  from_to_safe_string b h

/-- Witness for C2 at the concrete byte sequence `[0, 255, 7, 42]`. -/
theorem C2_safe_string_roundtrip_witness :
    from_safe_string (to_safe_string [0, 255, 7, 42]) = some [0, 255, 7, 42] :=
  C2_safe_string_roundtrip [0, 255, 7, 42] (by decide)

/-! ## UTF-8 lemmas -/

theorem utf8EncodeChar_eq1 {c : Nat} (h : c < 0x80) :
    utf8EncodeChar c = [c] := by
  unfold utf8EncodeChar; rw [if_pos h]

theorem utf8EncodeChar_eq2 {c : Nat} (h1 : 0x80 ≤ c) (h2 : c < 0x800) :
    utf8EncodeChar c = [0xC0 + c / 64, 0x80 + c % 64] := by
  unfold utf8EncodeChar; rw [if_neg (by omega), if_pos h2]

theorem utf8EncodeChar_eq3 {c : Nat} (h1 : 0x800 ≤ c) (h2 : c < 0x10000) :
    utf8EncodeChar c = [0xE0 + c / 4096, 0x80 + c / 64 % 64, 0x80 + c % 64] := by
  unfold utf8EncodeChar; rw [if_neg (by omega), if_neg (by omega), if_pos h2]

theorem utf8EncodeChar_eq4 {c : Nat} (h1 : 0x10000 ≤ c) :
    utf8EncodeChar c =
      [0xF0 + c / 262144, 0x80 + c / 4096 % 64, 0x80 + c / 64 % 64,
       0x80 + c % 64] := by
  unfold utf8EncodeChar
  rw [if_neg (by omega), if_neg (by omega), if_neg (by omega)]

theorem utf8EncodeChar_ne_nil (c : Nat) : utf8EncodeChar c ≠ [] := by
  unfold utf8EncodeChar; split_ifs <;> simp

theorem utf8Encode_cons (c : Nat) (s : List Nat) :
    utf8Encode (c :: s) = utf8EncodeChar c ++ utf8Encode s := by
  simp [utf8Encode]

theorem utf8Encode_append (s t : List Nat) :
    utf8Encode (s ++ t) = utf8Encode s ++ utf8Encode t := by
  simp [utf8Encode]

theorem utf8Encode_replicate0 (n : Nat) :
    utf8Encode (List.replicate n 0) = List.replicate n 0 := by
  induction n with
  | zero => rfl
  | succ n ih =>
    rw [List.replicate_succ, utf8Encode_cons, ih, utf8EncodeChar_eq1 (by norm_num)]
    rfl

theorem utf8EncodeChar_lt256 (c : Nat) (h : validScalar c) :
    ∀ b ∈ utf8EncodeChar c, b < 256 := by
  obtain ⟨hlt, _⟩ := h
  intro b hb
  by_cases h1 : c < 0x80
  · rw [utf8EncodeChar_eq1 h1] at hb
    simp only [List.mem_cons, List.not_mem_nil, or_false] at hb
    omega
  · by_cases h2 : c < 0x800
    · rw [utf8EncodeChar_eq2 (by omega) h2] at hb
      simp only [List.mem_cons, List.not_mem_nil, or_false] at hb
      rcases hb with rfl | rfl <;> omega
    · by_cases h3 : c < 0x10000
      · rw [utf8EncodeChar_eq3 (by omega) h3] at hb
        simp only [List.mem_cons, List.not_mem_nil, or_false] at hb
        rcases hb with rfl | rfl | rfl <;> omega
      · rw [utf8EncodeChar_eq4 (by omega)] at hb
        simp only [List.mem_cons, List.not_mem_nil, or_false] at hb
        rcases hb with rfl | rfl | rfl | rfl <;> omega

theorem utf8Encode_lt256 (s : List Nat) (h : ValidText s) :
    ∀ b ∈ utf8Encode s, b < 256 := by
  induction s with
  | nil => simp [utf8Encode]
  | cons c s ih =>
    intro b hb
    rw [utf8Encode_cons] at hb
    rcases List.mem_append.mp hb with hb | hb
    · exact utf8EncodeChar_lt256 c (h c (by simp)) b hb
    · exact ih (fun x hx => h x (by simp [hx])) b hb

theorem utf8DecodeOne_encodeChar (c : Nat) (h : validScalar c)
    (rest : List Nat) :
    utf8DecodeOne (utf8EncodeChar c ++ rest) = some (c, rest) := by
  obtain ⟨hlt, hsur⟩ := h
  by_cases h1 : c < 0x80
  · rw [utf8EncodeChar_eq1 h1]
    simp only [List.cons_append, List.nil_append, utf8DecodeOne]
    rw [if_pos h1]
  · by_cases h2 : c < 0x800
    · rw [utf8EncodeChar_eq2 (by omega) h2]
      simp only [List.cons_append, List.nil_append, utf8DecodeOne]
      rw [if_neg (by omega), if_pos (by omega)]
      rw [if_pos (by simp only [contOk, Bool.and_eq_true, decide_eq_true_eq]
                     refine ⟨by omega, by omega, by omega⟩)]
      rw [show cp2 (0xC0 + c / 64) (0x80 + c % 64) = c from by unfold cp2; omega]
    · by_cases h3 : c < 0x10000
      · rw [utf8EncodeChar_eq3 (by omega) h3]
        simp only [List.cons_append, List.nil_append, utf8DecodeOne]
        rw [if_neg (by omega), if_neg (by omega), if_pos (by omega)]
        have hcp : cp3 (0xE0 + c / 4096) (0x80 + c / 64 % 64) (0x80 + c % 64)
            = c := by
          unfold cp3; omega
        rw [if_pos (by
          simp only [contOk, hcp, Bool.and_eq_true, Bool.not_eq_true',
            Bool.and_eq_false_iff, decide_eq_true_eq, decide_eq_false_iff_not]
          refine ⟨⟨⟨⟨by omega, by omega⟩, ⟨by omega, by omega⟩⟩, by omega⟩, ?_⟩
          omega)]
        rw [hcp]
      · rw [utf8EncodeChar_eq4 (by omega)]
        simp only [List.cons_append, List.nil_append, utf8DecodeOne]
        rw [if_neg (by omega), if_neg (by omega), if_neg (by omega)]
        have hcp : cp4 (0xF0 + c / 262144) (0x80 + c / 4096 % 64)
            (0x80 + c / 64 % 64) (0x80 + c % 64) = c := by
          unfold cp4; omega
        rw [if_pos (by
          simp only [contOk, hcp, Bool.and_eq_true, decide_eq_true_eq]
          refine ⟨⟨⟨⟨⟨by omega, by omega, by omega⟩, by omega, by omega⟩,
            by omega, by omega⟩, by omega⟩, by omega⟩)]
        rw [hcp]

theorem utf8DecodeOne_shrink :
    ∀ (l : List Nat) (c : Nat) (rest : List Nat),
      utf8DecodeOne l = some (c, rest) → rest.length < l.length := by
  intro l c rest h
  match l with
  | [] => simp [utf8DecodeOne] at h
  | [b0] =>
    simp only [utf8DecodeOne] at h
    split_ifs at h
    simp_all
  | [b0, b1] =>
    simp only [utf8DecodeOne] at h
    split_ifs at h <;> simp_all
  | [b0, b1, b2] =>
    simp only [utf8DecodeOne] at h
    split_ifs at h <;> simp_all <;> omega
  | b0 :: b1 :: b2 :: b3 :: bs =>
    simp only [utf8DecodeOne] at h
    split_ifs at h <;> simp_all <;> omega

theorem utf8DecodeLoop_fuel :
    ∀ (f1 f2 : Nat) (l : List Nat), l.length ≤ f1 → l.length ≤ f2 →
      utf8DecodeLoop f1 l = utf8DecodeLoop f2 l := by
  intro f1
  induction f1 using Nat.strong_induction_on with
  | _ f1 ih =>
    intro f2 l h1 h2
    match l with
    | [] => cases f1 <;> cases f2 <;> rfl
    | b0 :: bs =>
      simp only [List.length_cons] at h1 h2
      cases f1 with
      | zero => omega
      | succ f1' =>
        cases f2 with
        | zero => omega
        | succ f2' =>
          simp only [utf8DecodeLoop]
          cases hone : utf8DecodeOne (b0 :: bs) with
          | none => rfl
          | some cr =>
            obtain ⟨c, rest⟩ := cr
            have hlt := utf8DecodeOne_shrink _ _ _ hone
            simp only [List.length_cons] at hlt
            exact congrArg (Option.map (c :: ·))
              (ih f1' (by omega) f2' rest (by omega) (by omega))

theorem utf8Decode_utf8Encode (s : List Nat) (h : ValidText s) :
    utf8Decode (utf8Encode s) = some s := by
  induction s with
  | nil => rfl
  | cons c s ih =>
    have hc : validScalar c := h c (by simp)
    have hs : ValidText s := fun x hx => h x (by simp [hx])
    rw [utf8Encode_cons]
    unfold utf8Decode
    cases hn : (utf8EncodeChar c ++ utf8Encode s).length with
    | zero =>
      exfalso
      rw [List.length_eq_zero] at hn
      exact utf8EncodeChar_ne_nil c (List.append_eq_nil.mp hn).1
    | succ m =>
      have hstep :
          utf8DecodeLoop (m + 1) (utf8EncodeChar c ++ utf8Encode s) =
            match utf8DecodeOne (utf8EncodeChar c ++ utf8Encode s) with
            | none => none
            | some (c', rest) =>
                (utf8DecodeLoop m rest).map (c' :: ·) := by
        cases he : utf8EncodeChar c ++ utf8Encode s with
        | nil => exact absurd (List.append_eq_nil.mp he).1 (utf8EncodeChar_ne_nil c)
        | cons x xs => simp [utf8DecodeLoop]
      rw [hstep, utf8DecodeOne_encodeChar c hc]
      show (utf8DecodeLoop m (utf8Encode s)).map (c :: ·) = some (c :: s)
      have hm : (utf8Encode s).length ≤ m := by
        have := List.length_append (utf8EncodeChar c) (utf8Encode s)
        have hne : 1 ≤ (utf8EncodeChar c).length := by
          cases hch : utf8EncodeChar c with
          | nil => exact absurd hch (utf8EncodeChar_ne_nil c)
          | cons y ys => simp
        omega
      rw [utf8DecodeLoop_fuel m (utf8Encode s).length _ hm (le_refl _)]
      rw [show utf8DecodeLoop (utf8Encode s).length (utf8Encode s) =
        utf8Decode (utf8Encode s) from rfl]
      rw [ih hs]
      rfl

/-! ## Stripping lemmas -/

theorem head?_dropWhileEq (c : Nat) (l : List Nat) :
    (List.dropWhile (· = c) l).head? ≠ some c := by
  induction l with
  | nil => simp
  | cons a l ih =>
    by_cases hac : a = c
    · subst hac; simpa [List.dropWhile_cons] using ih
    · simp [List.dropWhile_cons, hac]

theorem rstripChar_getLast? (c : Nat) (l : List Nat) :
    (rstripChar c l).getLast? ≠ some c := by
  unfold rstripChar
  rw [List.getLast?_reverse]
  exact head?_dropWhileEq c l.reverse

theorem rstripChar_eq_self {c : Nat} {l : List Nat}
    (h : l.getLast? ≠ some c) : rstripChar c l = l := by
  unfold rstripChar
  cases hr : l.reverse with
  | nil =>
    rw [List.reverse_eq_nil_iff] at hr
    simp [hr]
  | cons a t =>
    have ha : l.getLast? = some a := by
      rw [← List.head?_reverse, hr]; rfl
    have hac : a ≠ c := fun he => h (by rw [ha, he])
    rw [List.dropWhile_cons, if_neg (by simpa using hac), ← hr,
      List.reverse_reverse]

theorem rstripChar_append_replicate (c : Nat) (xs : List Nat) (n : Nat) :
    rstripChar c (xs ++ List.replicate n c) = rstripChar c xs := by
  unfold rstripChar
  rw [List.reverse_append, List.reverse_replicate, List.dropWhile_append,
    dropWhileEq_replicate]
  simp

theorem rstripChar_decomp (c : Nat) (l : List Nat) :
    ∃ k, l = rstripChar c l ++ List.replicate k c := by
  refine ⟨(l.reverse.takeWhile (· = c)).length, ?_⟩
  unfold rstripChar
  conv_lhs => rw [← List.reverse_reverse l,
    ← List.takeWhile_append_dropWhile (p := (· = c)) (l := l.reverse)]
  rw [List.reverse_append]
  congr 1
  have hrep : List.takeWhile (· = c) l.reverse =
      List.replicate (List.takeWhile (· = c) l.reverse).length c :=
    List.eq_replicate_of_mem
      (fun b hb => by simpa using List.mem_takeWhile_imp hb)
  rw [hrep, List.reverse_replicate, List.length_replicate]

theorem mem_rstripChar {c x : Nat} {l : List Nat}
    (h : x ∈ rstripChar c l) : x ∈ l := by
  unfold rstripChar at h
  rw [List.mem_reverse] at h
  exact List.mem_reverse.mp ((List.dropWhile_sublist (· = c)).subset h)

/-! ## Keystream lemmas -/

theorem xor_lt_256 {a b : Nat} (ha : a < 256) (hb : b < 256) :
    a ^^^ b < 256 := by
  have h : (256 : Nat) = 2 ^ 8 := by norm_num
  rw [h] at ha hb ⊢
  exact Nat.bitwise_lt ha hb

theorem xorKeystream_length (ks : Nat → Nat) (i : Nat) (l : List Nat) :
    (xorKeystream ks i l).length = l.length := by
  induction l generalizing i with
  | nil => rfl
  | cons b bs ih => simp [xorKeystream, ih]

theorem xorKeystream_lt256 (ks : Nat → Nat) (hks : ∀ j, ks j < 256) :
    ∀ (i : Nat) (l : List Nat), (∀ b ∈ l, b < 256) →
      ∀ b ∈ xorKeystream ks i l, b < 256 := by
  intro i l
  induction l generalizing i with
  | nil => simp [xorKeystream]
  | cons b bs ih =>
    intro hl x hx
    simp only [xorKeystream, List.mem_cons] at hx
    rcases hx with rfl | hx
    · exact xor_lt_256 (hl b (by simp)) (hks i)
    · exact ih (i + 1) (fun y hy => hl y (by simp [hy])) x hx

theorem xorKeystream_involution (ks : Nat → Nat) (i : Nat) (l : List Nat) :
    xorKeystream ks i (xorKeystream ks i l) = l := by
  induction l generalizing i with
  | nil => rfl
  | cons b bs ih =>
    simp only [xorKeystream, ih]
    rw [Nat.xor_cancel_right]

theorem xorKeystream_getElem? (ks : Nat → Nat) (l : List Nat) :
    ∀ i j, (xorKeystream ks i l)[j]? =
      l[j]?.map (fun b => b ^^^ ks (i + j)) := by
  induction l with
  | nil => intro i j; simp [xorKeystream]
  | cons b bs ih =>
    intro i j
    cases j with
    | zero => simp [xorKeystream]
    | succ j =>
      simp only [xorKeystream, List.getElem?_cons_succ, ih (i + 1) j]
      rw [show i + 1 + j = i + (j + 1) from by omega]

/-! ## Prefix lemmas (`str.startswith`) -/

theorem isPrefixOf_iff_take (l t : List Nat) :
    l.isPrefixOf t = true ↔ t.take l.length = l := by
  induction l generalizing t with
  | nil => simp [List.isPrefixOf]
  | cons a l ih =>
    cases t with
    | nil => simp [List.isPrefixOf]
    | cons b t =>
      simp only [List.isPrefixOf, Bool.and_eq_true, beq_iff_eq, ih,
        List.length_cons, List.take_succ_cons, List.cons.injEq]
      constructor
      · rintro ⟨rfl, h2⟩; exact ⟨rfl, h2⟩
      · rintro ⟨rfl, h2⟩; exact ⟨rfl, h2⟩

theorem isPrefixOf_append_self (l t : List Nat) :
    l.isPrefixOf (l ++ t) = true := by
  rw [isPrefixOf_iff_take]
  exact List.take_left l t

theorem getElem?_take_lt (t : List Nat) :
    ∀ (n j : Nat), j < n → (t.take n)[j]? = t[j]? := by
  induction t with
  | nil => simp
  | cons a t ih =>
    intro n j h
    cases n with
    | zero => omega
    | succ n =>
      cases j with
      | zero => simp
      | succ j => simpa [List.take_succ_cons] using ih n j (by omega)

theorem isPrefixOf_false_of_getElem? (l t : List Nat) (j : Nat)
    (hj : j < l.length) (hne : t[j]? ≠ l[j]?) : l.isPrefixOf t = false := by
  by_contra hcon
  rw [Bool.not_eq_false, isPrefixOf_iff_take] at hcon
  exact hne (by rw [← hcon, getElem?_take_lt t l.length j hj])

/-! ## `mapOpt` success -/

theorem mapOpt_isSome (f : Nat → Option Nat) (l : List Nat)
    (h : ∀ a ∈ l, (f a).isSome) :
    ∃ r, mapOpt f l = some r ∧ r.length = l.length := by
  induction l with
  | nil => exact ⟨[], rfl, rfl⟩
  | cons a l ih =>
    obtain ⟨r, hr, hlen⟩ := ih (fun a ha => h a (by simp [ha]))
    cases hfa : f a with
    | none =>
      exfalso
      have := h a (by simp)
      rw [hfa] at this
      simp at this
    | some b => exact ⟨b :: r, by simp [mapOpt, hfa, hr], by simp [hlen]⟩

/-! ## Key decoding -/

theorem exists_cons8_of_length {ds : List Nat} (h : 8 ≤ ds.length) :
    ∃ d0 d1 d2 d3 d4 d5 d6 d7 rest,
      ds = d0 :: d1 :: d2 :: d3 :: d4 :: d5 :: d6 :: d7 :: rest := by
  obtain ⟨d0, t0, rfl⟩ :=
    List.exists_cons_of_ne_nil (l := ds) (by intro he; subst he; simp at h)
  simp only [List.length_cons] at h
  obtain ⟨d1, t1, rfl⟩ :=
    List.exists_cons_of_ne_nil (l := t0) (by intro he; subst he; simp at h)
  simp only [List.length_cons] at h
  obtain ⟨d2, t2, rfl⟩ :=
    List.exists_cons_of_ne_nil (l := t1) (by intro he; subst he; simp at h)
  simp only [List.length_cons] at h
  obtain ⟨d3, t3, rfl⟩ :=
    List.exists_cons_of_ne_nil (l := t2) (by intro he; subst he; simp at h)
  simp only [List.length_cons] at h
  obtain ⟨d4, t4, rfl⟩ :=
    List.exists_cons_of_ne_nil (l := t3) (by intro he; subst he; simp at h)
  simp only [List.length_cons] at h
  obtain ⟨d5, t5, rfl⟩ :=
    List.exists_cons_of_ne_nil (l := t4) (by intro he; subst he; simp at h)
  simp only [List.length_cons] at h
  obtain ⟨d6, t6, rfl⟩ :=
    List.exists_cons_of_ne_nil (l := t5) (by intro he; subst he; simp at h)
  simp only [List.length_cons] at h
  obtain ⟨d7, t7, rfl⟩ :=
    List.exists_cons_of_ne_nil (l := t6) (by intro he; subst he; simp at h)
  exact ⟨d0, d1, d2, d3, d4, d5, d6, d7, t7, rfl⟩

theorem b32decodeDigits_length_8n4 :
    ∀ (n : Nat) (ds : List Nat), ds.length = 8 * n + 4 →
      (b32decodeDigits ds 4).length = 5 * n + 2 := by
  intro n
  induction n with
  | zero =>
    intro ds hlen
    obtain ⟨d0, t0, rfl⟩ :=
      List.exists_cons_of_ne_nil (l := ds) (by intro he; subst he; simp at hlen)
    simp only [List.length_cons] at hlen
    obtain ⟨d1, t1, rfl⟩ :=
      List.exists_cons_of_ne_nil (l := t0) (by intro he; subst he; simp at hlen)
    simp only [List.length_cons] at hlen
    obtain ⟨d2, t2, rfl⟩ :=
      List.exists_cons_of_ne_nil (l := t1) (by intro he; subst he; simp at hlen)
    simp only [List.length_cons] at hlen
    obtain ⟨d3, t3, rfl⟩ :=
      List.exists_cons_of_ne_nil (l := t2) (by intro he; subst he; simp at hlen)
    simp only [List.length_cons] at hlen
    have ht3 : t3 = [] := List.length_eq_zero.mp (by omega)
    subst ht3
    rfl
  | succ n ih =>
    intro ds hlen
    obtain ⟨d0, d1, d2, d3, d4, d5, d6, d7, rest, rfl⟩ :=
      exists_cons8_of_length (by rw [hlen]; omega)
    simp only [List.length_cons] at hlen
    simp only [b32decodeDigits, List.length_append]
    rw [show (natToBytes5
      (b32digitsToNat [d0, d1, d2, d3, d4, d5, d6, d7])).length = 5 from rfl]
    rw [ih rest (by omega)]
    omega

theorem from_safe_string_key (k : List Nat) (hk : matchesKeyPattern k = true) :
    ∃ kb, from_safe_string k = some kb ∧ kb.length = 32 := by
  unfold matchesKeyPattern at hk
  simp only [Bool.and_eq_true, decide_eq_true_eq, List.all_eq_true] at hk
  obtain ⟨⟨hlen, hall⟩, hdrop⟩ := hk
  obtain ⟨body, hb1, hblen, hbchars⟩ :
      ∃ body, k = body ++ [57, 57, 57, 57] ∧ body.length = 52 ∧
        ∀ c ∈ body, alphaChar c = true := by
    refine ⟨k.take 52, ?_, by rw [List.length_take]; omega, hall⟩
    conv_lhs => rw [← List.take_append_drop 52 k]
    rw [hdrop]
  subst hb1
  unfold from_safe_string
  rw [List.map_append, List.map_append]
  rw [show List.map upperChar [57, 57, 57, 57] = [57, 57, 57, 57] from rfl]
  rw [show List.map (fun c => if c = 57 then 61 else c) [57, 57, 57, 57] =
    [61, 61, 61, 61] from rfl]
  have hT : ∀ x ∈ List.map (fun c => if c = 57 then 61 else c)
      (List.map upperChar body),
      (65 ≤ x ∧ x ≤ 90) ∨ (50 ≤ x ∧ x ≤ 55) := by
    intro x hx
    simp only [List.map_map, Function.comp_def, List.mem_map] at hx
    obtain ⟨c, hc, rfl⟩ := hx
    have hcc := hbchars c hc
    simp only [alphaChar, decide_eq_true_eq] at hcc
    rcases hcc with ⟨h1, h2⟩ | ⟨h1, h2⟩
    · rw [show upperChar c = c - 32 from by
        unfold upperChar; exact if_pos (by omega)]
      rw [if_neg (by omega)]
      left; omega
    · rw [show upperChar c = c from by
        unfold upperChar; exact if_neg (by omega)]
      rw [if_neg (by omega)]
      right; omega
  have hTne : ∀ x ∈ List.map (fun c => if c = 57 then 61 else c)
      (List.map upperChar body), x ≠ 61 := by
    intro x hx
    rcases hT x hx with ⟨h1, h2⟩ | ⟨h1, h2⟩ <;> omega
  have hTsome : ∀ x ∈ List.map (fun c => if c = 57 then 61 else c)
      (List.map upperChar body), (b32CharRev x).isSome := by
    intro x hx
    unfold b32CharRev
    rcases hT x hx with ⟨h1, h2⟩ | ⟨h1, h2⟩
    · rw [if_pos ⟨h1, h2⟩]; rfl
    · rw [if_neg (by omega), if_pos ⟨h1, h2⟩]; rfl
  have hTlen : (List.map (fun c => if c = 57 then 61 else c)
      (List.map upperChar body)).length = 52 := by
    simp [hblen]
  unfold b32decode
  rw [show [61, 61, 61, 61] = List.replicate 4 61 from rfl]
  rw [rstripChar_append_no 61 _ _ hTne, rstripChar_replicate, List.append_nil]
  have e1 : (List.map (fun c => if c = 57 then 61 else c)
      (List.map upperChar body) ++ List.replicate 4 61).length = 56 := by
    simp [hblen]
  rw [e1, hTlen]
  rw [if_neg (by omega), if_pos (by omega)]
  obtain ⟨ds, hds, hdslen⟩ := mapOpt_isSome b32CharRev _ hTsome
  rw [hds]
  refine ⟨b32decodeDigits ds (56 - 52), rfl, ?_⟩
  rw [show (56 : Nat) - 52 = 4 from rfl]
  rw [b32decodeDigits_length_8n4 6 ds (by rw [hdslen, hTlen])]

/-! ## Trailing-NUL behaviour of UTF-8 -/

theorem utf8EncodeChar_getLast?_ne0 {c : Nat} (hc : c ≠ 0) :
    ∃ v, (utf8EncodeChar c).getLast? = some v ∧ v ≠ 0 := by
  by_cases h1 : c < 0x80
  · exact ⟨c, by rw [utf8EncodeChar_eq1 h1]; rfl, hc⟩
  · by_cases h2 : c < 0x800
    · exact ⟨0x80 + c % 64, by rw [utf8EncodeChar_eq2 (by omega) h2]; rfl,
        by omega⟩
    · by_cases h3 : c < 0x10000
      · exact ⟨0x80 + c % 64, by rw [utf8EncodeChar_eq3 (by omega) h3]; rfl,
          by omega⟩
      · exact ⟨0x80 + c % 64, by rw [utf8EncodeChar_eq4 (by omega)]; rfl,
          by omega⟩

theorem utf8Encode_getLast?_ne0 (s : List Nat) (h : s.getLast? ≠ some 0) :
    (utf8Encode s).getLast? ≠ some 0 := by
  induction s using List.reverseRecOn with
  | nil => simp [utf8Encode]
  | append_singleton xs c _ =>
    have hc : c ≠ 0 := by
      intro he
      subst he
      exact h (List.getLast?_concat xs)
    obtain ⟨v, hv, hv0⟩ := utf8EncodeChar_getLast?_ne0 hc
    rw [utf8Encode_append, List.getLast?_append]
    rw [show utf8Encode [c] = utf8EncodeChar c from by
      simp [utf8Encode]]
    rw [hv]
    simp [hv0]

theorem rstrip_utf8Encode (s : List Nat) :
    rstripChar 0 (utf8Encode s) = utf8Encode (rstripChar 0 s) := by
  obtain ⟨t, ht⟩ := rstripChar_decomp 0 s
  conv_lhs => rw [ht]
  rw [utf8Encode_append, utf8Encode_replicate0, rstripChar_append_replicate]
  exact rstripChar_eq_self (utf8Encode_getLast?_ne0 _ (rstripChar_getLast? 0 s))

theorem validText_rstrip {s : List Nat} (h : ValidText s) :
    ValidText (rstripChar 0 s) :=
  fun c hc => h c (mem_rstripChar hc)

/-! ## The encrypt/decrypt round trip -/

theorem except_bind_ok {α β : Type} (a : α)
    (f : α → Except EncryptionError β) : (Except.ok a).bind f = f a := rfl

theorem aes_mode_of_operation_key (k kb : List Nat)
    (hkb : from_safe_string k = some kb) (hkblen : kb.length = 32) :
    aes_mode_of_operation k = .ok kb := by
  unfold aes_mode_of_operation
  rw [hkb]
  exact if_pos (Or.inr (Or.inr hkblen))

theorem encrypt_eq (C : StreamCipher) (s k kb : List Nat) (p : Option Nat)
    (m : Nat)
    (hpad : encode_and_pad s p = .ok (utf8Encode s ++ List.replicate m 0))
    (hkb : from_safe_string k = some kb) (hkblen : kb.length = 32) :
    encrypt C s k p = .ok (HEADER_TEXT ++ to_safe_string
      (xorKeystream (C.keystream kb) 0
        (PLAINTEXT_PADDING ++ (utf8Encode s ++ List.replicate m 0)))) := by
  unfold encrypt
  rw [hpad, aes_mode_of_operation_key k kb hkb hkblen]

theorem decrypt_eq_of (C : StreamCipher) (ct key kb ctBytes : List Nat)
    (h1 : HEADER_TEXT.isPrefixOf ct = true)
    (h2 : from_safe_string (ct.drop HEADER_TEXT.length) = some ctBytes)
    (h3 : aes_mode_of_operation key = .ok kb) :
    decrypt C ct key =
      if PLAINTEXT_PADDING.isPrefixOf
          (xorKeystream (C.keystream kb) 0 ctBytes) then
        un_pad_and_decode ((xorKeystream (C.keystream kb) 0 ctBytes).drop
          PLAINTEXT_PADDING.length)
      else .error .InvalidKeyError := by
  unfold decrypt
  rw [if_pos h1, h2, h3]

theorem roundtrip_core (C : StreamCipher) (s k : List Nat) (p : Option Nat)
    (hs : ValidText s) (hk : matchesKeyPattern k = true)
    (hp : p = none ∨ ∃ n, p = some n ∧ (utf8Encode s).length ≤ n) :
    (encrypt C s k p).bind (fun ct => decrypt C ct k) =
      .ok (rstripChar 0 s) := by
  obtain ⟨m, hpad⟩ :
      ∃ m, encode_and_pad s p = .ok (utf8Encode s ++ List.replicate m 0) := by
    rcases hp with rfl | ⟨n, rfl, hn⟩
    · exact ⟨0, by simp [encode_and_pad]⟩
    · refine ⟨n - (utf8Encode s).length, ?_⟩
      show (if (utf8Encode s).length > n then
          (Except.error EncryptionError.PaddingError :
            Except EncryptionError (List Nat))
        else Except.ok (utf8Encode s ++
          List.replicate (n - (utf8Encode s).length) 0)) = _
      rw [if_neg (by omega)]
  obtain ⟨kb, hkb, hkblen⟩ := from_safe_string_key k hk
  rw [encrypt_eq C s k kb p m hpad hkb hkblen, except_bind_ok]
  have hbytes : ∀ b ∈ PLAINTEXT_PADDING ++
      (utf8Encode s ++ List.replicate m 0), b < 256 := by
    intro b hb
    rcases List.mem_append.mp hb with hb | hb
    · rw [List.eq_of_mem_replicate hb]; norm_num
    · rcases List.mem_append.mp hb with hb | hb
      · exact utf8Encode_lt256 s hs b hb
      · rw [List.eq_of_mem_replicate hb]; norm_num
  rw [decrypt_eq_of C _ k kb _ (isPrefixOf_append_self _ _)
    (by rw [List.drop_left]
        exact from_to_safe_string _
          (xorKeystream_lt256 _ (C.keystream_lt kb) 0 _ hbytes))
    (aes_mode_of_operation_key k kb hkb hkblen)]
  rw [xorKeystream_involution]
  rw [if_pos (isPrefixOf_append_self _ _), List.drop_left]
  unfold un_pad_and_decode
  rw [rstripChar_append_replicate, rstrip_utf8Encode,
    utf8Decode_utf8Encode _ (validText_rstrip hs)]

/-- A concrete stream cipher instance (all-zero keystream), used to
instantiate witnesses. -/
def constCipher : StreamCipher :=
  ⟨fun _ _ => 0, fun _ _ => by norm_num⟩

/-- A concrete valid key: 52 `a` characters followed by `9999`. -/
def keyW : List Nat := List.replicate 52 97 ++ [57, 57, 57, 57]

/-- C1. Round-trip: for every key of valid form (the 56-character key
pattern) and every valid string `s` with no trailing NUL code point,
`decrypt (encrypt s k) k` returns `s`; and with a pad length `n` at least
the UTF-8 length of `s`, `decrypt (encrypt s k n) k` returns `s` as well. -/
theorem C1_roundtrip (C : StreamCipher) (s k : List Nat)
    (hs : ValidText s) (hnul : s.getLast? ≠ some 0)
    (hk : matchesKeyPattern k = true) :
    (encrypt C s k none).bind (fun ct => decrypt C ct k) = .ok s ∧
    ∀ n, (utf8Encode s).length ≤ n →
      (encrypt C s k (some n)).bind (fun ct => decrypt C ct k) = .ok s := by
  have hself : rstripChar 0 s = s := rstripChar_eq_self hnul
  constructor
  · rw [roundtrip_core C s k none hs hk (Or.inl rfl), hself]
  · intro n hn
    rw [roundtrip_core C s k (some n) hs hk (Or.inr ⟨n, rfl, hn⟩), hself]

/-- Witness for C1: the two-character string "hi" with the concrete key,
with and without padding. -/
theorem C1_roundtrip_witness :
    (encrypt constCipher [104, 105] keyW none).bind
      (fun ct => decrypt constCipher ct keyW) = .ok [104, 105] ∧
    (encrypt constCipher [104, 105] keyW (some 5)).bind
      (fun ct => decrypt constCipher ct keyW) = .ok [104, 105] :=
  ⟨(C1_roundtrip constCipher [104, 105] keyW (by decide) (by decide)
      (by decide)).1,
   (C1_roundtrip constCipher [104, 105] keyW (by decide) (by decide)
      (by decide)).2 5 (by decide)⟩

/-- C8. Trailing-NUL stripping: decrypting an encryption of any valid
string returns the string with all trailing NUL code points removed, and
`un_pad_and_decode` strips every trailing NUL byte, not only the padding
that was added. -/
theorem C8_trailing_nul (C : StreamCipher) (s k : List Nat)
    (hs : ValidText s) (hk : matchesKeyPattern k = true) :
    (encrypt C s k none).bind (fun ct => decrypt C ct k) =
      .ok (rstripChar 0 s) ∧
    ∀ bs n, un_pad_and_decode (bs ++ List.replicate n 0) =
      un_pad_and_decode bs := by
  refine ⟨roundtrip_core C s k none hs hk (Or.inl rfl), ?_⟩
  intro bs n
  unfold un_pad_and_decode
  rw [rstripChar_append_replicate]

/-- Witness for C8: the string "h\x00\x00" (with two trailing NULs)
decrypts to "h". -/
theorem C8_trailing_nul_witness :
    (encrypt constCipher [104, 0, 0] keyW none).bind
      (fun ct => decrypt constCipher ct keyW) =
      .ok (rstripChar 0 [104, 0, 0]) ∧
    un_pad_and_decode ([104] ++ List.replicate 2 0) =
      un_pad_and_decode [104] :=
  ⟨(C8_trailing_nul constCipher [104, 0, 0] keyW (by decide) (by decide)).1,
   (C8_trailing_nul constCipher [104, 0, 0] keyW (by decide) (by decide)).2
     [104] 2⟩

/-! ## C4: padding overflow -/

/-- C4. Padding overflow: `encrypt s k (some N)` fails with `PaddingError`
when the UTF-8 encoding of `s` is longer than `N` bytes; when it is at most
`N` bytes, `encode_and_pad` right-pads with NUL bytes to exactly `N`
bytes. -/
theorem C4_padding_overflow (C : StreamCipher) (s k : List Nat) (N : Nat) :
    ((utf8Encode s).length > N →
      encrypt C s k (some N) = .error .PaddingError) ∧
    ((utf8Encode s).length ≤ N →
      ∃ r, encode_and_pad s (some N) = .ok r ∧
        r = utf8Encode s ++ List.replicate (N - (utf8Encode s).length) 0 ∧
        r.length = N) := by
  constructor
  · intro h
    have hpad : encode_and_pad s (some N) = .error .PaddingError := by
      show (if (utf8Encode s).length > N then
          (Except.error EncryptionError.PaddingError :
            Except EncryptionError (List Nat))
        else Except.ok (utf8Encode s ++
          List.replicate (N - (utf8Encode s).length) 0)) = _
      rw [if_pos h]
    unfold encrypt
    rw [hpad]
  · intro h
    refine ⟨utf8Encode s ++ List.replicate (N - (utf8Encode s).length) 0,
      ?_, rfl, ?_⟩
    · show (if (utf8Encode s).length > N then
          (Except.error EncryptionError.PaddingError :
            Except EncryptionError (List Nat))
        else Except.ok (utf8Encode s ++
          List.replicate (N - (utf8Encode s).length) 0)) = _
      rw [if_neg (by omega)]
    · simp only [List.length_append, List.length_replicate]
      omega

/-- Witness for C4: "hi" (2 UTF-8 bytes) overflows a pad length of 1 and
pads exactly to length 4. -/
theorem C4_padding_overflow_witness :
    encrypt constCipher [104, 105] keyW (some 1) = .error .PaddingError ∧
    ∃ r, encode_and_pad [104, 105] (some 4) = .ok r ∧
      r = utf8Encode [104, 105] ++
        List.replicate (4 - (utf8Encode [104, 105]).length) 0 ∧
      r.length = 4 :=
  ⟨(C4_padding_overflow constCipher [104, 105] keyW 1).1 (by decide),
   (C4_padding_overflow constCipher [104, 105] keyW 4).2 (by decide)⟩

/-! ## C7: format detection -/

/-- C7. Format detection: `is_encrypted t` is true exactly when `t` starts
with the fixed header (the literal "OKPY ENCRYPTED FILE FOLLOWS", a
newline, 100 `-` characters and a newline); in particular every successful
encryption is detected as encrypted. -/
theorem C7_format_detection :
    (∀ t : List Nat, is_encrypted t = true ↔
      ∃ r, t = (strCodes "OKPY ENCRYPTED FILE FOLLOWS\n" ++
        List.replicate 100 45 ++ [10]) ++ r) ∧
    (∀ (C : StreamCipher) (s k : List Nat) (p : Option Nat) (ct : List Nat),
      encrypt C s k p = .ok ct → is_encrypted ct = true) := by
  constructor
  · intro t
    constructor
    · intro h
      unfold is_encrypted at h
      rw [isPrefixOf_iff_take] at h
      refine ⟨t.drop HEADER_TEXT.length, ?_⟩
      conv_lhs => rw [← List.take_append_drop HEADER_TEXT.length t]
      rw [h]
      rfl
    · rintro ⟨r, rfl⟩
      exact isPrefixOf_append_self _ _
  · intro C s k p ct h
    unfold encrypt at h
    cases hpad : encode_and_pad s p with
    | error e => rw [hpad] at h; simp at h
    | ok padded =>
      rw [hpad] at h
      cases haes : aes_mode_of_operation k with
      | error e => rw [haes] at h; simp at h
      | ok kb =>
        rw [haes] at h
        simp only [Except.ok.injEq] at h
        rw [← h]
        exact isPrefixOf_append_self _ _

/-! ## C5 and C10: the key pattern and the `$` anchor -/

/-- C5 counterexample: the 57-character string of 52 `a`s, `9999` and a
trailing newline is accepted by `is_valid_key`, refuting the claim that
only 56-character pattern strings are accepted. -/
theorem C5_counterexample :
    is_valid_key (List.replicate 52 97 ++ [57, 57, 57, 57, 10]) = true ∧
    (List.replicate 52 97 ++ [57, 57, 57, 57, 10]).length = 57 := by
  constructor
  · decide
  · decide

/-- C5 (amended). `is_valid_key key` is true iff `key` is a 56-character
string of 52 characters from `[a-z2-7]` followed by the literal `9999`, or
such a string followed by a single trailing newline (which Python's `$`
anchor also accepts). -/
theorem C5_is_valid_key_iff (k : List Nat) :
    is_valid_key k = true ↔
      ((k.length = 56 ∧ (∀ c ∈ k.take 52, alphaChar c = true) ∧
        k.drop 52 = [57, 57, 57, 57]) ∨
       (∃ b, k = b ++ [10] ∧ b.length = 56 ∧
        (∀ c ∈ b.take 52, alphaChar c = true) ∧
        b.drop 52 = [57, 57, 57, 57])) := by
  unfold is_valid_key matchesKeyPattern
  simp only [Bool.or_eq_true, Bool.and_eq_true, decide_eq_true_eq,
    List.all_eq_true]
  constructor
  · rintro (⟨⟨h1, h2⟩, h3⟩ | ⟨h1, ⟨⟨h2, h3⟩, h4⟩⟩)
    · exact Or.inl ⟨h1, h2, h3⟩
    · refine Or.inr ⟨k.dropLast, ?_, h2, h3, h4⟩
      have hne : k ≠ [] := by
        intro he
        subst he
        simp at h1
      conv_lhs => rw [← List.dropLast_append_getLast hne]
      have : k.getLast hne = 10 := by
        have := List.getLast?_eq_getLast k hne
        rw [h1] at this
        exact (Option.some.injEq _ _).mp this.symm
      rw [this]
  · rintro (⟨h1, h2, h3⟩ | ⟨b, rfl, h2, h3, h4⟩)
    · exact Or.inl ⟨⟨h1, h2⟩, h3⟩
    · refine Or.inr ⟨by rw [List.getLast?_concat], ?_⟩
      rw [List.dropLast_concat]
      exact ⟨⟨h2, h3⟩, h4⟩

/-- C10. Appending a single trailing newline to any string matching the
key pattern still yields a key accepted by `is_valid_key`, because the
regex `$` anchor also matches just before a final newline. -/
theorem C10_trailing_newline (s : List Nat)
    (h : matchesKeyPattern s = true) :
    is_valid_key (s ++ [10]) = true := by
  unfold is_valid_key
  rw [List.getLast?_concat, List.dropLast_concat, h]
  simp

/-- Witness for C10 at the concrete key of 52 `a`s and `9999`. -/
theorem C10_trailing_newline_witness :
    is_valid_key (keyW ++ [10]) = true :=
  C10_trailing_newline keyW (by decide)

/-- Witness for C7: the header followed by one extra character is detected
as encrypted. -/
theorem C7_format_detection_witness :
    is_encrypted ((strCodes "OKPY ENCRYPTED FILE FOLLOWS\n" ++
      List.replicate 100 45 ++ [10]) ++ [104]) = true :=
  (C7_format_detection.1 _).mpr ⟨[104], rfl⟩

/-! ## C6: shape of `to_safe_string` on 32-byte inputs -/

theorem exists_cons5_of_length {bs : List Nat} (h : 5 ≤ bs.length) :
    ∃ b0 b1 b2 b3 b4 rest, bs = b0 :: b1 :: b2 :: b3 :: b4 :: rest := by
  obtain ⟨b0, t0, rfl⟩ :=
    List.exists_cons_of_ne_nil (l := bs) (by intro he; subst he; simp at h)
  simp only [List.length_cons] at h
  obtain ⟨b1, t1, rfl⟩ :=
    List.exists_cons_of_ne_nil (l := t0) (by intro he; subst he; simp at h)
  simp only [List.length_cons] at h
  obtain ⟨b2, t2, rfl⟩ :=
    List.exists_cons_of_ne_nil (l := t1) (by intro he; subst he; simp at h)
  simp only [List.length_cons] at h
  obtain ⟨b3, t3, rfl⟩ :=
    List.exists_cons_of_ne_nil (l := t2) (by intro he; subst he; simp at h)
  simp only [List.length_cons] at h
  obtain ⟨b4, t4, rfl⟩ :=
    List.exists_cons_of_ne_nil (l := t3) (by intro he; subst he; simp at h)
  exact ⟨b0, b1, b2, b3, b4, t4, rfl⟩

theorem b32encode_shape2 :
    ∀ (n : Nat) (bs : List Nat), bs.length = 5 * n + 2 →
      ∃ ds, b32encode bs = List.map b32Char ds ++ List.replicate 4 61 ∧
        (∀ d ∈ ds, d < 32) ∧ ds.length = 8 * n + 4 := by
  intro n
  induction n with
  | zero =>
    intro bs hlen
    obtain ⟨b0, t0, rfl⟩ := List.exists_cons_of_ne_nil (l := bs)
      (by intro he; subst he; simp at hlen)
    simp only [List.length_cons] at hlen
    obtain ⟨b1, t1, rfl⟩ := List.exists_cons_of_ne_nil (l := t0)
      (by intro he; subst he; simp at hlen)
    simp only [List.length_cons] at hlen
    have ht1 : t1 = [] := List.length_eq_zero.mp (by omega)
    subst ht1
    refine ⟨(natToDigits8 (bytesToNat [b0, b1, 0, 0, 0])).take 4, rfl, ?_, rfl⟩
    intro d hd
    exact natToDigits8_lt _ d (List.mem_of_mem_take hd)
  | succ n ih =>
    intro bs hlen
    obtain ⟨b0, b1, b2, b3, b4, rest, rfl⟩ :=
      exists_cons5_of_length (by rw [hlen]; omega)
    simp only [List.length_cons] at hlen
    obtain ⟨ds, hds, hd32, hdlen⟩ := ih rest (by omega)
    refine ⟨natToDigits8 (bytesToNat [b0, b1, b2, b3, b4]) ++ ds, ?_, ?_, ?_⟩
    · rw [show b32encode (b0 :: b1 :: b2 :: b3 :: b4 :: rest) =
        List.map b32Char (natToDigits8 (bytesToNat [b0, b1, b2, b3, b4]))
          ++ b32encode rest from rfl]
      rw [hds, List.map_append, List.append_assoc]
    · intro d hd
      rcases List.mem_append.mp hd with hd | hd
      · exact natToDigits8_lt _ d hd
      · exact hd32 d hd
    · simp only [List.length_append, hdlen]
      rw [show (natToDigits8 (bytesToNat [b0, b1, b2, b3, b4])).length = 8
        from rfl]
      omega

theorem to_safe_string_shape (b : List Nat) (hb : b.length = 32) :
    ∃ body, to_safe_string b = body ++ [57, 57, 57, 57] ∧
      body.length = 52 ∧ ∀ c ∈ body, alphaChar c = true := by
  obtain ⟨ds, hds, hd32, hdlen⟩ := b32encode_shape2 6 b (by omega)
  unfold to_safe_string
  rw [hds, List.map_append, List.map_append, List.map_replicate,
    List.map_replicate]
  rw [show lowerChar (if (61 : Nat) = 61 then 57 else 61) = 57 from rfl]
  refine ⟨List.map lowerChar (List.map (fun c => if c = 61 then 57 else c)
    (List.map b32Char ds)), rfl, by simp [hdlen], ?_⟩
  intro c hc
  simp only [List.map_map, Function.comp_def, List.mem_map] at hc
  obtain ⟨d, hd, rfl⟩ := hc
  have hd32' : d < 32 := hd32 d hd
  have hfin : ∀ e : Fin 32,
      alphaChar (lowerChar (if b32Char e.val = 61 then 57
        else b32Char e.val)) = true := by decide
  exact hfin ⟨d, hd32'⟩

theorem matchesKeyPattern_of (body : List Nat) (hlen : body.length = 52)
    (hall : ∀ c ∈ body, alphaChar c = true) :
    matchesKeyPattern (body ++ [57, 57, 57, 57]) = true := by
  have h1 : (body ++ [57, 57, 57, 57]).length = 56 := by simp [hlen]
  have h2 : (body ++ [57, 57, 57, 57]).take 52 = body :=
    List.take_left' hlen
  have h3 : (body ++ [57, 57, 57, 57]).drop 52 = [57, 57, 57, 57] :=
    List.drop_left' hlen
  unfold matchesKeyPattern
  rw [h1, h2, h3]
  simp only [List.all_eq_true, decide_eq_true_eq, Bool.and_eq_true]
  exact ⟨⟨by trivial, hall⟩, by trivial⟩

/-- C6. Generated keys are always valid: the text-safety encoding of any
32-byte sequence is 52 characters of the lowercase base32 alphabet followed
by exactly `9999`, so `is_valid_key` accepts it; `generate_key` returns
`to_safe_string` of 32 random bytes, hence is always valid. -/
theorem C6_generated_keys_valid (b : List Nat) (h : b.length = 32) :
    is_valid_key (to_safe_string b) = true := by
  obtain ⟨body, hK, hKlen, hKalpha⟩ := to_safe_string_shape b h
  unfold is_valid_key
  rw [hK, matchesKeyPattern_of body hKlen hKalpha]
  simp

/-- Witness for C6 at the all-zero 32-byte sequence. -/
theorem C6_generated_keys_valid_witness :
    is_valid_key (to_safe_string (List.replicate 32 0)) = true :=
  C6_generated_keys_valid (List.replicate 32 0) (by decide)

/-! ## C3: wrong-key detection -/

theorem xor_sandwich_ne {a b v : Nat} (h : a ≠ b) : (v ^^^ a) ^^^ b ≠ v := by
  intro he
  apply h
  have h1 : ((v ^^^ a) ^^^ b) ^^^ b = v ^^^ b := congrArg (· ^^^ b) he
  rw [Nat.xor_cancel_right] at h1
  have h2 : v ^^^ (v ^^^ a) = v ^^^ (v ^^^ b) := congrArg (v ^^^ ·) h1
  rwa [Nat.xor_cancel_left, Nat.xor_cancel_left] at h2

/-- C3. Wrong-key detection: for valid-form keys `k1`, `k2` whose
keystreams differ at some position in the first 16 bytes (i.e. excluding
the negligible-probability keystream collision of the underlying cipher),
`k1 ≠ k2` and `decrypt (encrypt s k1) k2` fails with `InvalidKeyError`. -/
theorem C3_wrong_key (C : StreamCipher) (s k1 k2 : List Nat)
    (hs : ValidText s)
    (hk1 : matchesKeyPattern k1 = true) (hk2 : matchesKeyPattern k2 = true)
    (hdiff : ∃ i, i < 16 ∧
      C.keystream ((from_safe_string k1).getD []) i ≠
        C.keystream ((from_safe_string k2).getD []) i) :
    k1 ≠ k2 ∧
    (encrypt C s k1 none).bind (fun ct => decrypt C ct k2) =
      .error .InvalidKeyError := by
  obtain ⟨kb1, hkb1, hl1⟩ := from_safe_string_key k1 hk1
  obtain ⟨kb2, hkb2, hl2⟩ := from_safe_string_key k2 hk2
  rw [hkb1, hkb2] at hdiff
  simp only [Option.getD_some] at hdiff
  obtain ⟨i, hi, hne⟩ := hdiff
  constructor
  · intro he
    apply hne
    rw [he] at hkb1
    rw [hkb2] at hkb1
    injection hkb1 with h'
    rw [h']
  · have hbytes : ∀ b ∈ PLAINTEXT_PADDING ++
        (utf8Encode s ++ List.replicate 0 0), b < 256 := by
      intro b hb
      rcases List.mem_append.mp hb with hb | hb
      · rw [List.eq_of_mem_replicate hb]; norm_num
      · rcases List.mem_append.mp hb with hb | hb
        · exact utf8Encode_lt256 s hs b hb
        · rw [List.eq_of_mem_replicate hb]; norm_num
    rw [encrypt_eq C s k1 kb1 none 0 (by simp [encode_and_pad]) hkb1 hl1,
      except_bind_ok]
    rw [decrypt_eq_of C _ k2 kb2 _ (isPrefixOf_append_self _ _)
      (by rw [List.drop_left]
          exact from_to_safe_string _
            (xorKeystream_lt256 _ (C.keystream_lt kb1) 0 _ hbytes))
      (aes_mode_of_operation_key k2 kb2 hkb2 hl2)]
    have hfalse : PLAINTEXT_PADDING.isPrefixOf
        (xorKeystream (C.keystream kb2) 0
          (xorKeystream (C.keystream kb1) 0
            (PLAINTEXT_PADDING ++ (utf8Encode s ++ List.replicate 0 0))))
        = false := by
      apply isPrefixOf_false_of_getElem? _ _ i
      · show i < (List.replicate 16 48).length
        simp
        omega
      · rw [xorKeystream_getElem?, xorKeystream_getElem?]
        rw [List.getElem?_append,
          if_pos (by show i < PLAINTEXT_PADDING.length; unfold PLAINTEXT_PADDING; simp; omega)]
        rw [show (PLAINTEXT_PADDING : List Nat)[i]? =
          (List.replicate 16 48 : List Nat)[i]? from rfl]
        rw [List.getElem?_replicate, if_pos (by omega)]
        simp only [Option.map_some', Option.map_some, ne_eq,
          Option.some.injEq, Nat.zero_add]
        exact xor_sandwich_ne hne
    rw [if_neg (by rw [hfalse]; exact Bool.false_ne_true)]

/-- A stream cipher whose keystream depends on the key: every byte of the
keystream is the first key byte reduced mod 256. -/
def keyedCipher : StreamCipher :=
  ⟨fun kb _ => kb.headD 0 % 256, fun _ _ => Nat.mod_lt _ (by norm_num)⟩

/-- A second concrete valid key (`b` followed by 51 `a`s and `9999`),
whose key bytes start with 8 rather than 0. -/
def keyW2 : List Nat := 98 :: (List.replicate 51 97 ++ [57, 57, 57, 57])

/-- Witness for C3: encrypting the empty string under `keyW` and
decrypting under `keyW2` with a key-dependent cipher fails. -/
theorem C3_wrong_key_witness :
    keyW ≠ keyW2 ∧
    (encrypt keyedCipher [] keyW none).bind
      (fun ct => decrypt keyedCipher ct keyW2) = .error .InvalidKeyError :=
  C3_wrong_key keyedCipher [] keyW keyW2 (by decide) (by decide) (by decide)
    ⟨0, by norm_num, by decide⟩

/-! ## C9: key scraping -/

theorem get_keys_cons_true (c : Nat) (rest : List Nat)
    (h : matchesAtStart (c :: rest) = true) :
    get_keys (c :: rest) =
      (c :: rest).take 56 :: get_keys ((c :: rest).drop 56) := by
  simp only [get_keys]
  rw [if_pos h]

theorem get_keys_cons_false (c : Nat) (rest : List Nat)
    (h : matchesAtStart (c :: rest) = false) :
    get_keys (c :: rest) = get_keys rest := by
  simp only [get_keys]
  rw [if_neg (by rw [h]; exact Bool.false_ne_true)]

theorem get_keys_of_ne_nil (s : List Nat) (hne : s ≠ [])
    (hm : matchesAtStart s = true) :
    get_keys s = s.take 56 :: get_keys (s.drop 56) := by
  obtain ⟨c, rest, rfl⟩ := List.exists_cons_of_ne_nil hne
  exact get_keys_cons_true c rest hm

theorem get_keys_short : ∀ s : List Nat, s.length < 56 → get_keys s = [] := by
  intro s
  induction s with
  | nil => intro _; simp [get_keys]
  | cons c rest ih =>
    intro hlen
    have hm : matchesAtStart (c :: rest) = false := by
      unfold matchesAtStart
      rw [show decide (56 ≤ (c :: rest).length) = false from by
        simp only [decide_eq_false_iff_not]
        simp only [List.length_cons] at hlen ⊢
        omega]
      simp
    rw [get_keys_cons_false c rest hm]
    exact ih (by simp only [List.length_cons] at hlen; omega)

theorem get_keys_pattern : ∀ (d : List Nat), ∀ x ∈ get_keys d,
    matchesKeyPattern x = true := by
  intro d
  induction d using get_keys.induct with
  | case1 => intro x hx; simp [get_keys] at hx
  | case2 c rest hm ih =>
    intro x hx
    rw [get_keys_cons_true c rest hm] at hx
    rcases List.mem_cons.mp hx with rfl | hx
    · unfold matchesAtStart at hm
      simp only [Bool.and_eq_true, decide_eq_true_eq, List.all_eq_true] at hm
      obtain ⟨⟨h56, hall⟩, hdrop⟩ := hm
      have l1 : ((c :: rest).take 56).length = 56 := by
        rw [List.length_take]
        omega
      have l2 : ((c :: rest).take 56).take 52 = (c :: rest).take 52 := by
        rw [List.take_take]
        norm_num
      have l3 : ((c :: rest).take 56).drop 52 = ((c :: rest).drop 52).take 4 := by
        rw [List.drop_take]
      unfold matchesKeyPattern
      rw [l1, l2, l3, hdrop]
      simp only [List.all_eq_true, decide_eq_true_eq, Bool.and_eq_true]
      exact ⟨⟨by trivial, hall⟩, by trivial⟩
    · exact ih x hx
  | case3 c rest hm ih =>
    intro x hx
    rw [get_keys_cons_false c rest (by simpa using hm)] at hx
    exact ih x hx

theorem matchesAtStart_false_of (xs t : List Nat) (c : Nat) (hc : c ∈ xs)
    (hca : alphaChar c = false) (hlen : xs.length ≤ 52) :
    matchesAtStart (xs ++ t) = false := by
  have hmem : c ∈ (xs ++ t).take 52 := by
    rw [List.take_append_eq_append_take]
    exact List.mem_append.mpr (Or.inl (by rw [List.take_of_length_le hlen]; exact hc))
  have hall : ((xs ++ t).take 52).all alphaChar = false :=
    List.all_eq_false.mpr ⟨c, hmem, by simp [hca]⟩
  unfold matchesAtStart
  rw [hall]
  simp

theorem get_keys_append_skip (xs t : List Nat)
    (h : ∀ i, i < xs.length → matchesAtStart (xs.drop i ++ t) = false) :
    get_keys (xs ++ t) = get_keys t := by
  induction xs with
  | nil => simp
  | cons c xs ih =>
    rw [List.cons_append, get_keys_cons_false _ _ (by
      have h0 := h 0 (by simp)
      simpa using h0)]
    exact ih (fun i hi => by
      have hi1 := h (i + 1) (by simp only [List.length_cons]; omega)
      simpa using hi1)

theorem get_keys_embedded (b : List Nat) (hb : b.length = 32) :
    get_keys (strCodes "prefix " ++ to_safe_string b ++ strCodes " suffix") =
      [to_safe_string b] := by
  obtain ⟨body, hK, hKlen, hKalpha⟩ := to_safe_string_shape b hb
  rw [hK, List.append_assoc]
  have hKlen' : (body ++ [57, 57, 57, 57]).length = 56 := by simp [hKlen]
  rw [get_keys_append_skip]
  · have hm : matchesAtStart ((body ++ [57, 57, 57, 57]) ++
        strCodes " suffix") = true := by
      unfold matchesAtStart
      have t1 : (((body ++ [57, 57, 57, 57]) ++ strCodes " suffix")).take 52 =
          body := by
        rw [List.append_assoc, List.take_append_eq_append_take]
        rw [List.take_of_length_le (by omega)]
        rw [show 52 - body.length = 0 from by omega]
        simp
      have t2 : (((body ++ [57, 57, 57, 57]) ++ strCodes " suffix")).drop 52 =
          [57, 57, 57, 57] ++ strCodes " suffix" := by
        rw [show (52 : Nat) = body.length from hKlen.symm, List.append_assoc,
          List.drop_left]
      rw [t1, t2]
      simp only [List.all_eq_true, decide_eq_true_eq, Bool.and_eq_true]
      refine ⟨⟨?_, hKalpha⟩, ?_⟩
      · rw [List.length_append, hKlen']
        omega
      · rw [List.take_append_eq_append_take]
        rw [show List.take 4 [57, 57, 57, 57] = [57, 57, 57, 57] from rfl]
        rw [show (4 : Nat) - ([57, 57, 57, 57] : List Nat).length = 0
          from rfl]
        simp
    rw [get_keys_of_ne_nil _ (by
        intro he
        have := congrArg List.length he
        rw [List.length_append, hKlen'] at this
        simp at this) hm]
    rw [List.take_left' hKlen', List.drop_left' hKlen']
    rw [get_keys_short (strCodes " suffix") (by decide)]
  · intro i hi
    rw [show (strCodes "prefix ").length = 7 from rfl] at hi
    interval_cases i <;>
      exact matchesAtStart_false_of _ _ 32 (by decide) (by decide) (by decide)

/-- C9. Key scraping: every element returned by `get_keys` is a
56-character match of the key pattern (the scan records matches in order,
left to right, resuming after each match), and for every 32-byte `b`, the
key `to_safe_string b` embedded as `"prefix " + key + " suffix"` is
returned as the single match. -/
theorem C9_get_keys (d : List Nat) :
    (∀ x ∈ get_keys d, matchesKeyPattern x = true) ∧
    (∀ b : List Nat, b.length = 32 →
      get_keys (strCodes "prefix " ++ to_safe_string b ++
        strCodes " suffix") = [to_safe_string b]) :=
  ⟨get_keys_pattern d, get_keys_embedded⟩

/-- Witness for C9 at the all-zero 32-byte sequence. -/
theorem C9_get_keys_witness :
    get_keys (strCodes "prefix " ++ to_safe_string (List.replicate 32 0) ++
      strCodes " suffix") = [to_safe_string (List.replicate 32 0)] :=
  (C9_get_keys []).2 (List.replicate 32 0) (by decide)

end Encryption
